import Mathlib

/-!
Shallow embedding of `pyping.py`, a minimal ICMP Echo ("ping") client,
together with proofs about its codec (packet pack/unpack and checksum),
its probe engine loop, and its statistics functions.

Modelling conventions:
* Byte strings are `List Nat`; a valid byte string has every entry `< 256`.
* Python 2 `struct.pack`/`struct.unpack` with the bare format `'bbHHh'`
  uses native byte order, which is little-endian on the program's target
  platform, so all 16-bit fields are serialized low byte first.  Out-of-range
  struct arguments raise `struct.error`; the embedding returns `none`/`.error`.
* Python integer operations on nonnegative ints: `x & 0xffff = x % 2 ^ 16`,
  `x >> 16 = x / 2 ^ 16`, and `~x & 0xffff = 65535 - x % 65536`.
* Python 2 `/` on ints is floor division, i.e. `Nat` division here.
-/

namespace Icmp

def TYPE_ECHO_REPLY : Nat := 0

def TYPE_ECHO_REQUEST : Nat := 8

/-- Embeds `Icmp._carry_around_add`: `c = a + b; (c & 0xffff) + (c >> 16)`. -/
def carry_around_add (a b : Nat) : Nat :=
  let c := a + b
  (c &&& 0xffff) + (c >>> 16)

/-- The 16-bit words the loop of `Icmp._checksum` reads from a byte string:
`w = ord(msg[i]) + (ord(msg[i+1]) << 8)` (low byte first), with a single
zero byte appended first when the length is odd. -/
def checksum_words : List Nat → List Nat
  | [] => []
  | [b0] => [b0 + (0 <<< 8)]
  | b0 :: b1 :: rest => (b0 + (b1 <<< 8)) :: checksum_words rest

/-- Embeds `Icmp._checksum`: ones'-complement sum of the 16-bit words with
per-step carry folding, then `~s & 0xffff`, which for the nonnegative
accumulator `s` equals `65535 - s % 65536`. -/
def checksum (msg : List Nat) : Nat :=
  65535 - ((checksum_words msg).foldl carry_around_add 0) % 65536

/-- Little-endian serialization of a 16-bit value, as Python
`struct.pack` does for `'H'` (and for `'h'` on nonnegative values)
in native (little-endian) mode. -/
def le16 (x : Nat) : List Nat := [x % 256, x / 256 % 256]

/-- Embeds `Icmp.pack`.  `struct.pack('bbHHh', icmp_type, 0, csum, identity,
sequence)` serializes the five header fields in native little-endian order and
raises `struct.error` (here: `none`) when a field is out of range: `'b'` needs
`icmp_type < 128` (nonnegative case), `'H'` needs `identity < 65536`, and the
signed `'h'` needs `sequence < 32768` (the engine only ever passes
nonnegative sequence numbers).  Returns the packet together with
`len(header)` and `len(data)`. -/
def pack (identity : Nat) (icmp_type : Nat) (data : List Nat) (sequence : Nat) :
    Option (List Nat × Nat × Nat) :=
  if icmp_type < 128 ∧ identity < 65536 ∧ sequence < 32768 then
    let header0 := [icmp_type, 0] ++ le16 0 ++ le16 identity ++ le16 sequence
    let csum := checksum (header0 ++ data)
    let header := [icmp_type, 0] ++ le16 csum ++ le16 identity ++ le16 sequence
    some (header ++ data, header.length, data.length)
  else
    none

/-- Error raised by `struct.unpack` when the header slice is not exactly
8 bytes long. -/
inductive StructError where
  | unpackLength
deriving DecidableEq, Repr

/-- Signed interpretation of one byte (`struct` format `'b'`). -/
def sbyte (b : Nat) : Int := if b < 128 then (b : Int) else (b : Int) - 256

/-- Signed interpretation of a 16-bit word (`struct` format `'h'`). -/
def s16 (w : Nat) : Int := if w < 32768 then (w : Int) else (w : Int) - 65536

/-- The tuple returned by `Icmp.unpack`:
`icmp_type, icmp_code, csum, identity, sequence, data`. -/
structure EchoFields where
  icmp_type : Int
  icmp_code : Int
  csum : Nat
  identity : Nat
  sequence : Int
  data : List Nat
deriving DecidableEq, Repr

/-- Embeds `Icmp.unpack`: strip a 20-byte IP header, take the next 8 bytes as
the ICMP header and the rest as payload, and `struct.unpack('bbHHh', header)`,
which raises `struct.error` unless the header slice is exactly 8 bytes. -/
def unpack (packed : List Nat) : Except StructError EchoFields :=
  let without_ip_header := packed.drop 20
  let header := without_ip_header.take 8
  let data := without_ip_header.drop 8
  if header.length = 8 then
    .ok { icmp_type := sbyte (header.getD 0 0)
          icmp_code := sbyte (header.getD 1 0)
          csum := header.getD 2 0 + (header.getD 3 0 <<< 8)
          identity := header.getD 4 0 + (header.getD 5 0 <<< 8)
          sequence := s16 (header.getD 6 0 + (header.getD 7 0 <<< 8))
          data := data }
  else
    .error .unpackLength

end Icmp

/-- The fixed payload `"Ping Pong"` the engine packs into every request
(ASCII bytes). -/
def pingPongData : List Nat := [80, 105, 110, 103, 32, 80, 111, 110, 103]

/-- The mutable state of a `Pying` instance that the run loop touches:
`cycles`, `identity`, `_sequence`, `_completed` and `_stats`
(the recorded response times, in milliseconds). -/
structure PyingState where
  cycles : Option Nat
  identity : Nat
  sequence : Nat
  completed : Nat
  stats : List ℚ
deriving DecidableEq, Repr

/-- One outcome of the `select` poll inside `Pying.receive`: either the
1-second window elapses with no data, or a datagram is delivered.  The
response time the clock would measure at delivery is attached to the
event, standing in for `_get_response_time()`. -/
inductive PollEvent where
  | timeout
  | datagram (data : List Nat) (rt : ℚ)
deriving DecidableEq, Repr

/-- The four ways one call to `Pying.receive` can end. -/
inductive ReceiveResult where
  | matched (st : PyingState)
  | nomatch
  | socketTimeout
  | structError
deriving DecidableEq, Repr

/-- Embeds one call of `Pying.receive`: on a ready datagram it unpacks it
(`struct.error` propagates), accepts it iff the type is `TYPE_ECHO_REPLY`
and the identity matches, appending the response time to `_stats`; a
non-matching datagram returns `False`; an empty poll raises
`SocketTimeout`. -/
def receive (st : PyingState) (ev : PollEvent) : ReceiveResult :=
  match ev with
  | .timeout => .socketTimeout
  | .datagram d rt =>
    match Icmp.unpack d with
    | .error _ => .structError
    | .ok f =>
      if f.icmp_type = (Icmp.TYPE_ECHO_REPLY : Int) ∧ f.identity = st.identity then
        .matched { st with stats := st.stats ++ [rt] }
      else
        .nomatch

/-- How the wait sub-loop (`while not received: ...` plus the surrounding
`try/except` in `Pying.run`) ends: a matched reply (with `_completed`
incremented), a caught `SocketTimeout`, an uncaught exception from
`Icmp.unpack` re-raised by the bare `except: raise` (terminating the run),
or exhaustion of the modelled event supply while the loop is still
polling. -/
inductive WaitResult where
  | matched (st : PyingState) (rest : List PollEvent)
  | timedOut (st : PyingState) (rest : List PollEvent)
  | fatal (st : PyingState) (rest : List PollEvent)
  | starved
deriving DecidableEq, Repr

/-- Embeds the wait sub-loop of `Pying.run`: poll until `receive` returns
`True` (then `_completed += 1` and stop), a `SocketTimeout` is caught
(abandon the cycle), or any other exception propagates. -/
def waitLoop (st : PyingState) : List PollEvent → WaitResult
  | [] => .starved
  | ev :: evs =>
    match receive st ev with
    | .matched st' => .matched { st' with completed := st'.completed + 1 } evs
    | .nomatch => waitLoop st evs
    | .socketTimeout => .timedOut st evs
    | .structError => .fatal st evs

/-- Status of the run loop after some number of iterations. -/
inductive RunStatus where
  | running (st : PyingState) (evs : List PollEvent)
  | finished (st : PyingState)
  | crashed (st : PyingState)
  | starved (st : PyingState)
deriving DecidableEq, Repr

/-- The engine state carried by a `RunStatus`. -/
def RunStatus.state : RunStatus → PyingState
  | .running st _ => st
  | .finished st => st
  | .crashed st => st
  | .starved st => st

/-- The `while` condition of `Pying.run`:
`self.cycles is None or self._sequence < self.cycles`. -/
def loopCond (st : PyingState) : Bool :=
  match st.cycles with
  | none => true
  | some c => st.sequence < c

/-- Embeds one iteration of the main loop of `Pying.run`: test the loop
condition; if it holds, increment `_sequence`, pack and send the request
(a `struct.error` from `Icmp.pack` crashes the run), then run the wait
sub-loop.  The second component reports the sequence number sent on this
iteration, if a probe was sent. -/
def runStep (st : PyingState) (evs : List PollEvent) : RunStatus × Option Nat :=
  if loopCond st then
    let st1 := { st with sequence := st.sequence + 1 }
    match Icmp.pack st1.identity Icmp.TYPE_ECHO_REQUEST pingPongData st1.sequence with
    | none => (.crashed st1, none)
    | some _ =>
      match waitLoop st1 evs with
      | .matched st2 rest => (.running st2 rest, some st1.sequence)
      | .timedOut st2 rest => (.running st2 rest, some st1.sequence)
      | .fatal st2 _ => (.crashed st2, some st1.sequence)
      | .starved => (.starved st1, some st1.sequence)
  else
    (.finished st, none)

/-- Run up to `n` iterations of the main loop, collecting the sequence
numbers of the probes sent. -/
def runN : Nat → PyingState → List PollEvent → RunStatus × List Nat
  | 0, st, evs => (.running st evs, [])
  | n + 1, st, evs =>
    match runStep st evs with
    | (.running st' evs', sent) =>
      let r := runN n st' evs'
      (r.1, sent.toList ++ r.2)
    | (other, sent) => (other, sent.toList)

/-- The engine state at the start of `Pying.run`'s main loop: `_sequence`,
`_completed` and `_stats` at their constructor values, `identity` set to
the process id. -/
def initState (cycles : Option Nat) (identity : Nat) : PyingState :=
  { cycles := cycles, identity := identity, sequence := 0, completed := 0, stats := [] }

/-- Embeds `Pying._get_packet_loss` (Python 2 `/` on ints is floor
division). -/
def get_packet_loss (completed sequence : Nat) : Int :=
  if completed = 0 then 100
  else 100 - 100 * ((completed / sequence : Nat) : Int)

/-- Embeds Python 2 `round(x, 3)` for the exact value `x`: round half away
from zero; on the nonnegative values handled here that is rounding half up,
i.e. Mathlib's `round`. -/
def round3 (x : ℚ) : ℚ := (round (x * 1000) : ℚ) / 1000

/-- Embeds Python `min(stats)` (raises on an empty list, hence `Option`). -/
def listMin : List ℚ → Option ℚ
  | [] => none
  | h :: t => some (t.foldl min h)

/-- Embeds Python `max(stats)`. -/
def listMax : List ℚ → Option ℚ
  | [] => none
  | h :: t => some (t.foldl max h)

/-- Embeds `numpy.mean(stats)` as exact rational arithmetic. -/
def npMean (stats : List ℚ) : ℚ := stats.sum / (stats.length : ℚ)

/-- The square of `numpy.std(stats)`: the population variance (squared
deviations divided by the count, not count − 1), as exact rational
arithmetic.  `numpy.std` itself is the square root of this. -/
def npVarPop (stats : List ℚ) : ℚ :=
  ((stats.map (fun x => (x - npMean stats) ^ 2)).sum) / (stats.length : ℚ)

/-- The sample list of claim C7. -/
def sampleRtts : List ℚ := [10, 20, 30]

/-- The invariant of claim C10: between cycles the received count is at most
the transmitted (sequence) count and the number of recorded round-trip-time
samples equals the received count. -/
def EngineInv (st : PyingState) : Prop :=
  st.completed ≤ st.sequence ∧ st.stats.length = st.completed

/-- Big-endian serialization of a 16-bit value, as the spec's claimed
`u16(BE)` wire fields. -/
def be16 (x : Nat) : List Nat := [x / 256 % 256, x % 256]

/-- Byte stream read as big-endian 16-bit words (odd length padded with one
trailing zero byte), as the spec's claimed checksum input. -/
def words_be : List Nat → List Nat
  | [] => []
  | [b0] => [b0 <<< 8]
  | b0 :: b1 :: rest => ((b0 <<< 8) + b1) :: words_be rest

/-- Repeatedly fold carries, `sum = (sum & 0xffff) + (sum >> 16)` until no
carry remains, written with an explicit fuel argument (the value itself is
ample fuel, since each folding step strictly decreases the value). -/
def foldCarriesAux : Nat → Nat → Nat
  | 0, s => s
  | fuel + 1, s => if s < 65536 then s else foldCarriesAux fuel (s % 65536 + s / 65536)

/-- Repeated carry folding of a checksum accumulator until it fits in
16 bits. -/
def foldCarries (s : Nat) : Nat := foldCarriesAux s s

/-- Modelled from the spec's words in claim C3: the checksum is "the
ones'-complement sum over the header-plus-payload stream read as big-endian
16-bit words (odd length padded with one trailing zero byte), carries folded,
then complemented and masked to 16 bits".  The complement-and-mask of the
folded (hence 16-bit) sum is `65535 - _`. -/
def checksum_be_claim (msg : List Nat) : Nat :=
  65535 - foldCarries (words_be msg).sum

/-- Modelled from the spec's words in claim C3 (everything except byte
order): the 8-byte header `type=8, code=0, checksum, identifier, sequence`
followed by the payload, with the claimed big-endian fields and big-endian
checksum words.  Compared against `Icmp.pack` to settle claim C3. -/
def pack_be_claim (id sq : Nat) (data : List Nat) : List Nat :=
  let header0 := [8, 0] ++ be16 0 ++ be16 id ++ be16 sq
  let c := checksum_be_claim (header0 ++ data)
  [8, 0] ++ be16 c ++ be16 id ++ be16 sq ++ data

/-- The checksum as the amended claim C3 describes it: the byte stream read
as little-endian 16-bit words (odd length padded with one trailing zero
byte), summed, carries folded repeatedly, then complemented and masked to
16 bits.  Proved equal to the incremental `Icmp.checksum` on valid byte
strings. -/
def checksum_le_spec (msg : List Nat) : Nat :=
  65535 - foldCarries (Icmp.checksum_words msg).sum

/-! ## Arithmetic facts about the checksum -/

theorem carry_around_add_eq (a b : Nat) :
    Icmp.carry_around_add a b = (a + b) % 65536 + (a + b) / 65536 := by
  have h1 : (a + b) &&& 0xffff = (a + b) % 65536 := by
    have h := Nat.and_pow_two_sub_one_eq_mod (a + b) 16
    norm_num at h
    exact h
  have h2 : (a + b) >>> 16 = (a + b) / 65536 := by
    have h := Nat.shiftRight_eq_div_pow (a + b) 16
    norm_num at h
    exact h
  simp only [Icmp.carry_around_add, h1, h2]

theorem carry_around_add_le (a b : Nat) (ha : a ≤ 65535) (hb : b ≤ 65535) :
    Icmp.carry_around_add a b ≤ 65535 := by
  rw [carry_around_add_eq]; omega

theorem carry_around_add_modeq (a b : Nat) :
    Icmp.carry_around_add a b % 65535 = (a + b) % 65535 := by
  rw [carry_around_add_eq]; omega

theorem carry_around_add_pos (a b : Nat) (h : 0 < a + b) :
    0 < Icmp.carry_around_add a b := by
  rw [carry_around_add_eq]; omega

theorem foldl_carry_le (l : List Nat) (hl : ∀ w ∈ l, w ≤ 65535) :
    ∀ acc, acc ≤ 65535 → l.foldl Icmp.carry_around_add acc ≤ 65535 := by
  induction l with
  | nil => intro acc h; simpa using h
  | cons w t ih =>
    intro acc hacc
    simp only [List.foldl_cons]
    exact ih (fun x hx => hl x (List.mem_cons_of_mem _ hx)) _
      (carry_around_add_le acc w hacc (hl w (List.mem_cons_self _ _)))

theorem foldl_carry_modeq (l : List Nat) :
    ∀ acc, l.foldl Icmp.carry_around_add acc % 65535 = (acc + l.sum) % 65535 := by
  induction l with
  | nil => intro acc; simp
  | cons w t ih =>
    intro acc
    simp only [List.foldl_cons, List.sum_cons]
    rw [ih]
    have h := carry_around_add_modeq acc w
    omega

theorem foldl_carry_pos (l : List Nat) :
    ∀ acc, 0 < acc + l.sum → 0 < l.foldl Icmp.carry_around_add acc := by
  induction l with
  | nil => intro acc h; simpa using h
  | cons w t ih =>
    intro acc h
    simp only [List.foldl_cons]
    apply ih
    simp only [List.sum_cons] at h
    by_cases haw : 0 < acc + w
    · have := carry_around_add_pos acc w haw
      omega
    · have h0 : acc = 0 ∧ w = 0 := by omega
      have : Icmp.carry_around_add acc w = 0 := by
        rw [h0.1, h0.2]; rfl
      omega

theorem foldl_carry_zero (l : List Nat) (h : ∀ w ∈ l, w = 0) :
    l.foldl Icmp.carry_around_add 0 = 0 := by
  induction l with
  | nil => rfl
  | cons w t ih =>
    have hw : w = 0 := h w (List.mem_cons_self _ _)
    simp only [List.foldl_cons, hw]
    have : Icmp.carry_around_add 0 0 = 0 := rfl
    rw [this]
    exact ih (fun x hx => h x (List.mem_cons_of_mem _ hx))

theorem foldCarriesAux_le (fuel : Nat) :
    ∀ s, s ≤ fuel → foldCarriesAux fuel s ≤ 65535 := by
  induction fuel with
  | zero => intro s h; simp only [foldCarriesAux]; omega
  | succ n ih =>
    intro s h
    simp only [foldCarriesAux]
    split
    · omega
    · exact ih _ (by omega)

theorem foldCarriesAux_modeq (fuel : Nat) :
    ∀ s, foldCarriesAux fuel s % 65535 = s % 65535 := by
  induction fuel with
  | zero => intro s; rfl
  | succ n ih =>
    intro s
    simp only [foldCarriesAux]
    split
    · rfl
    · rw [ih]; omega

theorem foldCarriesAux_pos (fuel : Nat) :
    ∀ s, 0 < s → 0 < foldCarriesAux fuel s := by
  induction fuel with
  | zero => intro s h; simpa [foldCarriesAux] using h
  | succ n ih =>
    intro s h
    simp only [foldCarriesAux]
    split
    · exact h
    · exact ih _ (by omega)

theorem foldCarries_le (s : Nat) : foldCarries s ≤ 65535 :=
  foldCarriesAux_le s s le_rfl

theorem foldCarries_modeq (s : Nat) : foldCarries s % 65535 = s % 65535 :=
  foldCarriesAux_modeq s s

theorem foldCarries_pos (s : Nat) (h : 0 < s) : 0 < foldCarries s :=
  foldCarriesAux_pos s s h

theorem foldl_carry_eq_foldCarries (l : List Nat) (hl : ∀ w ∈ l, w ≤ 65535) :
    l.foldl Icmp.carry_around_add 0 = foldCarries l.sum := by
  rcases Nat.eq_zero_or_pos l.sum with h0 | hpos
  · have hz : ∀ w ∈ l, w = 0 := by
      intro w hw
      have := List.sum_eq_zero_iff.mp h0 w hw
      exact this
    rw [foldl_carry_zero l hz, h0]
    rfl
  · have hx1 : l.foldl Icmp.carry_around_add 0 ≤ 65535 := foldl_carry_le l hl 0 (by omega)
    have hx2 : l.foldl Icmp.carry_around_add 0 % 65535 = (0 + l.sum) % 65535 :=
      foldl_carry_modeq l 0
    have hx3 : 0 < l.foldl Icmp.carry_around_add 0 := foldl_carry_pos l 0 (by omega)
    have hy1 : foldCarries l.sum ≤ 65535 := foldCarries_le _
    have hy2 : foldCarries l.sum % 65535 = l.sum % 65535 := foldCarries_modeq _
    have hy3 : 0 < foldCarries l.sum := foldCarries_pos _ hpos
    omega

/-! ## Structure of the packed header -/

theorem checksum_words_le : ∀ (msg : List Nat), (∀ b ∈ msg, b < 256) →
    ∀ w ∈ Icmp.checksum_words msg, w ≤ 65535
  | [], _, w, hw => by simp [Icmp.checksum_words] at hw
  | [b0], h, w, hw => by
    have hb := h b0 (by simp)
    simp [Icmp.checksum_words, Nat.shiftLeft_eq] at hw
    omega
  | b0 :: b1 :: rest, h, w, hw => by
    simp only [Icmp.checksum_words, List.mem_cons] at hw
    rcases hw with hw | hw
    · have h0 := h b0 (by simp)
      have h1 := h b1 (by simp)
      rw [Nat.shiftLeft_eq] at hw
      norm_num at hw
      omega
    · exact checksum_words_le rest (fun b hb => h b (by simp [hb])) w hw

theorem checksum_words_header (t c0 id sq : Nat) (data : List Nat)
    (hc : c0 < 65536) (hid : id < 65536) (hsq : sq < 65536) :
    Icmp.checksum_words ([t, 0] ++ Icmp.le16 c0 ++ Icmp.le16 id ++ Icmp.le16 sq ++ data) =
      t :: c0 :: id :: sq :: Icmp.checksum_words data := by
  simp only [Icmp.le16, List.cons_append, List.nil_append]
  simp only [Icmp.checksum_words, Nat.shiftLeft_eq, List.cons.injEq]
  norm_num
  omega

theorem le16_bytes (x b : Nat) (h : b ∈ Icmp.le16 x) : b < 256 := by
  simp [Icmp.le16] at h
  rcases h with h | h <;> omega

theorem pack_eq (id t sq : Nat) (data : List Nat) (h : t < 128 ∧ id < 65536 ∧ sq < 32768) :
    Icmp.pack id t data sq = some
      ([t, 0] ++ Icmp.le16 (Icmp.checksum ([t, 0] ++ Icmp.le16 0 ++ Icmp.le16 id ++ Icmp.le16 sq ++ data))
        ++ Icmp.le16 id ++ Icmp.le16 sq ++ data,
       8, data.length) := by
  simp only [Icmp.pack, if_pos h, Icmp.le16]
  simp

theorem unpack_cons (b0 b1 b2 b3 b4 b5 b6 b7 : Nat) (stub data : List Nat) (h : stub.length = 20) :
    Icmp.unpack (stub ++ ([b0, b1, b2, b3, b4, b5, b6, b7] ++ data)) =
      .ok { icmp_type := Icmp.sbyte b0, icmp_code := Icmp.sbyte b1,
            csum := b2 + (b3 <<< 8), identity := b4 + (b5 <<< 8),
            sequence := Icmp.s16 (b6 + (b7 <<< 8)), data := data } := by
  have hdrop : (stub ++ ([b0, b1, b2, b3, b4, b5, b6, b7] ++ data)).drop 20 =
      [b0, b1, b2, b3, b4, b5, b6, b7] ++ data := by
    rw [← h]
    exact List.drop_left _ _
  simp only [Icmp.unpack, hdrop]
  rfl

theorem unpack_short (d : List Nat) (h : d.length < 28) :
    Icmp.unpack d = .error .unpackLength := by
  have hlen : ¬ (((d.drop 20).take 8).length = 8) := by
    simp only [List.length_take, List.length_drop]
    omega
  simp only [Icmp.unpack, if_neg hlen]

/-! ## The checksum over a completed packet cancels to zero -/

theorem checksum_pack_zero (id sq : Nat) (data : List Nat)
    (hid : id < 65536) (hsq : sq < 32768) (hdata : ∀ b ∈ data, b < 256) :
    Icmp.checksum
      ([8, 0] ++ Icmp.le16 (Icmp.checksum ([8, 0] ++ Icmp.le16 0 ++ Icmp.le16 id ++ Icmp.le16 sq ++ data))
        ++ Icmp.le16 id ++ Icmp.le16 sq ++ data) = 0 := by
  have hwd : ∀ w ∈ Icmp.checksum_words data, w ≤ 65535 := checksum_words_le data hdata
  have h0 : Icmp.checksum_words ([8, 0] ++ Icmp.le16 0 ++ Icmp.le16 id ++ Icmp.le16 sq ++ data) =
      8 :: 0 :: id :: sq :: Icmp.checksum_words data :=
    checksum_words_header 8 0 id sq data (by omega) hid (by omega)
  have hall0 : ∀ w ∈ 8 :: 0 :: id :: sq :: Icmp.checksum_words data, w ≤ 65535 := by
    intro w hw
    simp only [List.mem_cons] at hw
    rcases hw with rfl | rfl | rfl | rfl | hw
    · omega
    · omega
    · omega
    · omega
    · exact hwd w hw
  have hS_le : (8 :: 0 :: id :: sq :: Icmp.checksum_words data).foldl Icmp.carry_around_add 0 ≤ 65535 :=
    foldl_carry_le _ hall0 0 (by omega)
  have hS_mod : (8 :: 0 :: id :: sq :: Icmp.checksum_words data).foldl Icmp.carry_around_add 0 % 65535 =
      (0 + (8 :: 0 :: id :: sq :: Icmp.checksum_words data).sum) % 65535 :=
    foldl_carry_modeq _ 0
  have hcdef : Icmp.checksum ([8, 0] ++ Icmp.le16 0 ++ Icmp.le16 id ++ Icmp.le16 sq ++ data) =
      65535 - (8 :: 0 :: id :: sq :: Icmp.checksum_words data).foldl Icmp.carry_around_add 0 % 65536 := by
    simp only [Icmp.checksum, h0]
  set c := Icmp.checksum ([8, 0] ++ Icmp.le16 0 ++ Icmp.le16 id ++ Icmp.le16 sq ++ data) with hc
  have hc_lt : c < 65536 := by
    rw [hcdef]; omega
  have h1 : Icmp.checksum_words ([8, 0] ++ Icmp.le16 c ++ Icmp.le16 id ++ Icmp.le16 sq ++ data) =
      8 :: c :: id :: sq :: Icmp.checksum_words data :=
    checksum_words_header 8 c id sq data hc_lt hid (by omega)
  have hall1 : ∀ w ∈ 8 :: c :: id :: sq :: Icmp.checksum_words data, w ≤ 65535 := by
    intro w hw
    simp only [List.mem_cons] at hw
    rcases hw with rfl | rfl | rfl | rfl | hw
    · omega
    · omega
    · omega
    · omega
    · exact hwd w hw
  have hT_le : (8 :: c :: id :: sq :: Icmp.checksum_words data).foldl Icmp.carry_around_add 0 ≤ 65535 :=
    foldl_carry_le _ hall1 0 (by omega)
  have hT_mod : (8 :: c :: id :: sq :: Icmp.checksum_words data).foldl Icmp.carry_around_add 0 % 65535 =
      (0 + (8 :: c :: id :: sq :: Icmp.checksum_words data).sum) % 65535 :=
    foldl_carry_modeq _ 0
  have hT_pos : 0 < (8 :: c :: id :: sq :: Icmp.checksum_words data).foldl Icmp.carry_around_add 0 := by
    apply foldl_carry_pos
    simp [List.sum_cons]
  simp only [Icmp.checksum, h1]
  simp only [List.sum_cons] at hS_mod hT_mod
  omega

/-! ## Behaviour of the wait sub-loop and the run loop -/

theorem waitLoop_matched_eq : ∀ (evs : List PollEvent) (st st' : PyingState) (rest : List PollEvent),
    waitLoop st evs = .matched st' rest →
    ∃ rt, st' = { st with completed := st.completed + 1, stats := st.stats ++ [rt] } := by
  intro evs
  induction evs with
  | nil => intro st st' rest h; simp [waitLoop] at h
  | cons ev evs ih =>
    intro st st' rest h
    cases ev with
    | timeout => simp [waitLoop, receive] at h
    | datagram d rt =>
      cases hu : Icmp.unpack d with
      | error e => simp [waitLoop, receive, hu] at h
      | ok f =>
        by_cases hm : f.icmp_type = (Icmp.TYPE_ECHO_REPLY : Int) ∧ f.identity = st.identity
        · simp only [waitLoop, receive, hu, if_pos hm] at h
          simp only [WaitResult.matched.injEq] at h
          exact ⟨rt, h.1.symm⟩
        · simp only [waitLoop, receive, hu, if_neg hm] at h
          exact ih st st' rest h

theorem waitLoop_timedOut_eq : ∀ (evs : List PollEvent) (st st' : PyingState) (rest : List PollEvent),
    waitLoop st evs = .timedOut st' rest → st' = st := by
  intro evs
  induction evs with
  | nil => intro st st' rest h; simp [waitLoop] at h
  | cons ev evs ih =>
    intro st st' rest h
    cases ev with
    | timeout =>
      simp only [waitLoop, receive, WaitResult.timedOut.injEq] at h
      exact h.1.symm
    | datagram d rt =>
      cases hu : Icmp.unpack d with
      | error e => simp [waitLoop, receive, hu] at h
      | ok f =>
        by_cases hm : f.icmp_type = (Icmp.TYPE_ECHO_REPLY : Int) ∧ f.identity = st.identity
        · simp [waitLoop, receive, hu, if_pos hm] at h
        · simp only [waitLoop, receive, hu, if_neg hm] at h
          exact ih st st' rest h

theorem waitLoop_fatal_eq : ∀ (evs : List PollEvent) (st st' : PyingState) (rest : List PollEvent),
    waitLoop st evs = .fatal st' rest → st' = st := by
  intro evs
  induction evs with
  | nil => intro st st' rest h; simp [waitLoop] at h
  | cons ev evs ih =>
    intro st st' rest h
    cases ev with
    | timeout => simp [waitLoop, receive] at h
    | datagram d rt =>
      cases hu : Icmp.unpack d with
      | error e =>
        simp only [waitLoop, receive, hu, WaitResult.fatal.injEq] at h
        exact h.1.symm
      | ok f =>
        by_cases hm : f.icmp_type = (Icmp.TYPE_ECHO_REPLY : Int) ∧ f.identity = st.identity
        · simp [waitLoop, receive, hu, if_pos hm] at h
        · simp only [waitLoop, receive, hu, if_neg hm] at h
          exact ih st st' rest h

theorem runStep_cases (st : PyingState) (evs : List PollEvent) :
    (loopCond st = false ∧ runStep st evs = (.finished st, none)) ∨
    runStep st evs = (.crashed { st with sequence := st.sequence + 1 }, none) ∨
    runStep st evs = (.crashed { st with sequence := st.sequence + 1 }, some (st.sequence + 1)) ∨
    runStep st evs = (.starved { st with sequence := st.sequence + 1 }, some (st.sequence + 1)) ∨
    (∃ evs', runStep st evs =
      (.running { st with sequence := st.sequence + 1 } evs', some (st.sequence + 1))) ∨
    (∃ rt evs', runStep st evs =
      (.running { st with sequence := st.sequence + 1, completed := st.completed + 1,
                          stats := st.stats ++ [rt] } evs', some (st.sequence + 1))) := by
  by_cases hl : loopCond st
  · simp only [runStep, if_pos hl]
    cases hp : Icmp.pack st.identity Icmp.TYPE_ECHO_REQUEST pingPongData (st.sequence + 1) with
    | none => exact Or.inr (Or.inl rfl)
    | some r =>
      cases hw : waitLoop { st with sequence := st.sequence + 1 } evs with
      | matched st2 rest =>
        obtain ⟨rt, hrt⟩ := waitLoop_matched_eq evs _ st2 rest hw
        subst hrt
        exact Or.inr (Or.inr (Or.inr (Or.inr (Or.inr ⟨rt, rest, rfl⟩))))
      | timedOut st2 rest =>
        have := waitLoop_timedOut_eq evs _ st2 rest hw
        subst this
        exact Or.inr (Or.inr (Or.inr (Or.inr (Or.inl ⟨rest, rfl⟩))))
      | fatal st2 rest =>
        have := waitLoop_fatal_eq evs _ st2 rest hw
        subst this
        exact Or.inr (Or.inr (Or.inl rfl))
      | starved =>
        exact Or.inr (Or.inr (Or.inr (Or.inl rfl)))
  · left
    refine ⟨by simpa using hl, ?_⟩
    simp only [runStep, if_neg hl]

theorem runN_trace : ∀ (n : Nat) (st : PyingState) (evs : List PollEvent),
    ∃ m, m ≤ n ∧ (runN n st evs).2 = List.range' (st.sequence + 1) m := by
  intro n
  induction n with
  | zero => intro st evs; exact ⟨0, le_rfl, rfl⟩
  | succ k ih =>
    intro st evs
    rcases runStep_cases st evs with ⟨hl, hs⟩ | hs | hs | hs | ⟨evs', hs⟩ | ⟨rt, evs', hs⟩
    · exact ⟨0, by omega, by simp [runN, hs]⟩
    · exact ⟨0, by omega, by simp [runN, hs]⟩
    · exact ⟨1, by omega, by simp [runN, hs, List.range']⟩
    · exact ⟨1, by omega, by simp [runN, hs, List.range']⟩
    · obtain ⟨m, hm, htr⟩ := ih { st with sequence := st.sequence + 1 } evs'
      refine ⟨m + 1, by omega, ?_⟩
      simp only [runN, hs]
      simp [htr, List.range']
    · obtain ⟨m, hm, htr⟩ := ih ({ st with sequence := st.sequence + 1, completed := st.completed + 1, stats := st.stats ++ [rt] }) evs'
      refine ⟨m + 1, by omega, ?_⟩
      simp only [runN, hs]
      simp [htr, List.range']

theorem runN_inv : ∀ (n : Nat) (st : PyingState) (evs : List PollEvent), EngineInv st →
    EngineInv ((runN n st evs).1.state) := by
  intro n
  induction n with
  | zero => intro st evs h; exact h
  | succ k ih =>
    intro st evs h
    obtain ⟨h1, h2⟩ := h
    rcases runStep_cases st evs with ⟨hl, hs⟩ | hs | hs | hs | ⟨evs', hs⟩ | ⟨rt, evs', hs⟩ <;>
      simp only [runN, hs]
    · exact ⟨h1, h2⟩
    · exact ⟨show st.completed ≤ st.sequence + 1 by omega, show st.stats.length = st.completed from h2⟩
    · exact ⟨show st.completed ≤ st.sequence + 1 by omega, show st.stats.length = st.completed from h2⟩
    · exact ⟨show st.completed ≤ st.sequence + 1 by omega, show st.stats.length = st.completed from h2⟩
    · exact ih _ evs' ⟨show st.completed ≤ st.sequence + 1 by omega, show st.stats.length = st.completed from h2⟩
    · exact ih _ evs' ⟨show st.completed + 1 ≤ st.sequence + 1 by omega, show (st.stats ++ [rt]).length = st.completed + 1 by simp [h2]⟩

theorem runN_not_finished : ∀ (n : Nat) (st : PyingState) (evs : List PollEvent),
    st.cycles = none → ∀ st', (runN n st evs).1 ≠ .finished st' := by
  intro n
  induction n with
  | zero => intro st evs hc st' h; simp [runN] at h
  | succ k ih =>
    intro st evs hc st'
    rcases runStep_cases st evs with ⟨hl, hs⟩ | hs | hs | hs | ⟨evs', hs⟩ | ⟨rt, evs', hs⟩ <;>
      simp only [runN, hs]
    · simp [loopCond, hc] at hl
    · simp
    · simp
    · simp
    · exact ih _ evs' (by simpa using hc) st'
    · exact ih _ evs' (by simpa using hc) st'

theorem runN_cycles_zero (idty : Nat) (evs : List PollEvent) :
    ∀ n, 1 ≤ n → runN n (initState (some 0) idty) evs =
      (.finished (initState (some 0) idty), []) := by
  intro n hn
  cases n with
  | zero => omega
  | succ k =>
    have hs : runStep (initState (some 0) idty) evs = (.finished (initState (some 0) idty), none) := by
      simp [runStep, loopCond, initState]
    simp [runN, hs]

theorem checksum_eq_le_spec (msg : List Nat) (h : ∀ b ∈ msg, b < 256) :
    Icmp.checksum msg = checksum_le_spec msg := by
  have hw := checksum_words_le msg h
  have heq := foldl_carry_eq_foldCarries (Icmp.checksum_words msg) hw
  have hle := foldCarries_le (Icmp.checksum_words msg).sum
  simp only [Icmp.checksum, checksum_le_spec, heq]
  omega

/-! ## Claim theorems -/

/-- C1: with `cycles = 0` the main loop of `Pying.run` exits immediately
(its condition `_sequence < cycles` is false at once), so no probe is ever
sent and the summary is printed right away; the loop is unbounded only when
`cycles` is `None` (then it never finishes on its own).  This refutes the
claimed "cycles = 0 loops unboundedly" and evidences the code bug: the CLI
default `-c 0` parses successfully, so the `cycles = None` path the code's
own comment expects is unreachable. -/
theorem run_cycles_zero_exits_immediately :
    (∀ (idty n : Nat) (evs : List PollEvent), 1 ≤ n →
      runN n (initState (some 0) idty) evs = (.finished (initState (some 0) idty), [])) ∧
    (∀ (idty n : Nat) (evs : List PollEvent) (st' : PyingState),
      (runN n (initState none idty) evs).1 ≠ .finished st') := by
  constructor
  · intro idty n evs hn
    exact runN_cycles_zero idty evs n hn
  · intro idty n evs st'
    exact runN_not_finished n _ evs rfl st'

/-- Witness for C1: one iteration with `cycles = 0` already finishes with an
empty probe trace. -/
theorem run_cycles_zero_exits_immediately_witness :
    1 ≤ 1 ∧ runN 1 (initState (some 0) 9) [] = (.finished (initState (some 0) 9), []) :=
  ⟨by decide, run_cycles_zero_exits_immediately.1 9 1 [] (by decide)⟩

/-- C2 counterexample: a short (hence undecodable) datagram during the wait
sub-loop does not lead to the datagram being discarded with polling
continuing (which would be `timedOut` on the next event here); instead the
decode error is re-raised and the run is terminated (`fatal`). -/
theorem decode_error_not_recovered_cex :
    waitLoop (initState none 7) [.datagram [] 0, .timeout] =
      .fatal (initState none 7) [.timeout] ∧
    waitLoop (initState none 7) [.datagram [] 0, .timeout] ≠
      .timedOut (initState none 7) [] := by
  constructor
  · rfl
  · decide

/-- C2 (amended): decoding any input of fewer than 28 bytes fails with the
`struct.error` from `struct.unpack` (decode never returns a packet), but such
a failure inside the wait sub-loop is NOT recovered locally: `Pying.run`
catches only `SocketTimeout` and re-raises everything else, so the error
terminates the run. -/
theorem decode_error_terminates_run (st : PyingState) (d : List Nat) (rt : ℚ)
    (evs : List PollEvent) (h : d.length < 28) :
    Icmp.unpack d = .error .unpackLength ∧
    waitLoop st (.datagram d rt :: evs) = .fatal st evs := by
  have hu := unpack_short d h
  exact ⟨hu, by simp [waitLoop, receive, hu]⟩

/-- Witness for C2's amended theorem at the empty datagram. -/
theorem decode_error_terminates_run_witness :
    ([] : List Nat).length < 28 ∧
    (Icmp.unpack [] = .error .unpackLength ∧
     waitLoop (initState none 7) [.datagram [] 0] = .fatal (initState none 7) []) :=
  ⟨by decide, decode_error_terminates_run (initState none 7) [] 0 [] (by decide)⟩

/-- C6: `Pying._get_packet_loss` returns 100 when `_completed = 0` and
otherwise `100 - 100 * (_completed / _sequence)` with floor division
(Python 2 integer `/`); in particular the three quoted cases. -/
theorem packet_loss_values :
    get_packet_loss 0 10 = 100 ∧ get_packet_loss 4 4 = 0 ∧ get_packet_loss 1 3 = 100 ∧
    ∀ received transmitted : Nat, get_packet_loss received transmitted =
      if received = 0 then 100 else 100 - 100 * ((received / transmitted : Nat) : Int) := by
  refine ⟨by decide, by decide, by decide, fun r t => rfl⟩

/-- C8: during the wait sub-loop a decoded datagram is accepted (the
`receive` call returns `True`, recording the sample) exactly when its type
is `TYPE_ECHO_REPLY` and its identifier equals the run's identifier; any
other decoded datagram yields `False`, leaves the state untouched, and the
wait sub-loop simply continues with the remaining events (no termination,
no received-count change). -/
theorem reply_filter (st : PyingState) (d : List Nat) (rt : ℚ) (f : Icmp.EchoFields)
    (evs : List PollEvent) (h : Icmp.unpack d = .ok f) :
    (receive st (.datagram d rt) = .matched { st with stats := st.stats ++ [rt] } ↔
      (f.icmp_type = (Icmp.TYPE_ECHO_REPLY : Int) ∧ f.identity = st.identity)) ∧
    (¬(f.icmp_type = (Icmp.TYPE_ECHO_REPLY : Int) ∧ f.identity = st.identity) →
      receive st (.datagram d rt) = .nomatch ∧
      waitLoop st (.datagram d rt :: evs) = waitLoop st evs) := by
  constructor
  · constructor
    · intro hr
      by_contra hm
      simp [receive, h, if_neg hm] at hr
    · intro hm
      simp [receive, h, if_pos hm]
  · intro hm
    exact ⟨by simp [receive, h, if_neg hm], by simp [waitLoop, receive, h, if_neg hm]⟩

/-- Witness for C8: an Echo Request (type 8) datagram with identifier 0 is
discarded by a run with identifier 1 and the wait sub-loop continues. -/
theorem reply_filter_witness :
    Icmp.unpack (List.replicate 20 0 ++ [8, 0, 0, 0, 0, 0, 0, 0]) =
      .ok ⟨8, 0, 0, 0, 0, []⟩ ∧
    receive (initState none 1) (.datagram (List.replicate 20 0 ++ [8, 0, 0, 0, 0, 0, 0, 0]) 0) =
      .nomatch ∧
    waitLoop (initState none 1) [.datagram (List.replicate 20 0 ++ [8, 0, 0, 0, 0, 0, 0, 0]) 0] =
      waitLoop (initState none 1) [] := by
  have h : Icmp.unpack (List.replicate 20 0 ++ [8, 0, 0, 0, 0, 0, 0, 0]) =
      .ok ⟨8, 0, 0, 0, 0, []⟩ := by rfl
  have h2 := (reply_filter (initState none 1) _ 0 _ [] h).2 (by decide)
  exact ⟨h, h2.1, h2.2⟩

/-- C9: the sequence counter starts at 0 in `initState` and is incremented by
exactly one before each send, so any run of the loop emits the probe trace
`[1, 2, ..., m]` for some `m`, regardless of how each cycle ends. -/
theorem sequence_counter_trace :
    (∀ (st : PyingState) (evs : List PollEvent),
      (runStep st evs).2 = none ∨ (runStep st evs).2 = some (st.sequence + 1)) ∧
    (∀ (c : Option Nat) (idty n : Nat) (evs : List PollEvent),
      ∃ m, m ≤ n ∧ (runN n (initState c idty) evs).2 = List.range' 1 m) := by
  constructor
  · intro st evs
    rcases runStep_cases st evs with ⟨_, hs⟩ | hs | hs | hs | ⟨evs', hs⟩ | ⟨rt, evs', hs⟩ <;>
      rw [hs] <;> simp
  · intro c idty n evs
    simpa [initState] using runN_trace n (initState c idty) evs

/-- C10: between cycles the received count never exceeds the transmitted
(sequence) count and the recorded sample list has exactly `_completed`
entries; each single cycle either leaves both unchanged or appends exactly
one sample while incrementing the received count by one. -/
theorem stats_received_invariant :
    (∀ (st : PyingState) (evs : List PollEvent), EngineInv st →
      EngineInv ((runStep st evs).1.state) ∧
      (((runStep st evs).1.state.completed = st.completed ∧
        (runStep st evs).1.state.stats = st.stats) ∨
       ∃ rt, (runStep st evs).1.state.completed = st.completed + 1 ∧
         (runStep st evs).1.state.stats = st.stats ++ [rt])) ∧
    (∀ (c : Option Nat) (idty n : Nat) (evs : List PollEvent),
      EngineInv ((runN n (initState c idty) evs).1.state)) := by
  constructor
  · intro st evs hinv
    obtain ⟨h1, h2⟩ := hinv
    rcases runStep_cases st evs with ⟨_, hs⟩ | hs | hs | hs | ⟨evs', hs⟩ | ⟨rt, evs', hs⟩ <;> rw [hs]
    · exact ⟨⟨h1, h2⟩, Or.inl ⟨rfl, rfl⟩⟩
    · exact ⟨⟨show st.completed ≤ st.sequence + 1 by omega, h2⟩, Or.inl ⟨rfl, rfl⟩⟩
    · exact ⟨⟨show st.completed ≤ st.sequence + 1 by omega, h2⟩, Or.inl ⟨rfl, rfl⟩⟩
    · exact ⟨⟨show st.completed ≤ st.sequence + 1 by omega, h2⟩, Or.inl ⟨rfl, rfl⟩⟩
    · exact ⟨⟨show st.completed ≤ st.sequence + 1 by omega, h2⟩, Or.inl ⟨rfl, rfl⟩⟩
    · exact ⟨⟨show st.completed + 1 ≤ st.sequence + 1 by omega,
        show (st.stats ++ [rt]).length = st.completed + 1 by simp [h2]⟩,
        Or.inr ⟨rt, rfl, rfl⟩⟩
  · intro c idty n evs
    exact runN_inv n _ evs ⟨Nat.le_refl 0, rfl⟩

/-- Witness for C10 at a concrete state satisfying the invariant. -/
theorem stats_received_invariant_witness :
    EngineInv (initState none 3) ∧
    (EngineInv ((runStep (initState none 3) []).1.state) ∧
     (((runStep (initState none 3) []).1.state.completed = (initState none 3).completed ∧
       (runStep (initState none 3) []).1.state.stats = (initState none 3).stats) ∨
      ∃ rt, (runStep (initState none 3) []).1.state.completed = (initState none 3).completed + 1 ∧
        (runStep (initState none 3) []).1.state.stats = (initState none 3).stats ++ [rt])) :=
  ⟨⟨Nat.le_refl 0, rfl⟩, stats_received_invariant.1 (initState none 3) [] ⟨Nat.le_refl 0, rfl⟩⟩

/-- C3 counterexample: the emitted header fields are not big-endian — at
`identity = 1, sequence = 1` the packet `Icmp.pack` builds differs from the
one the claimed big-endian wire format prescribes — and encode does not
succeed for every sequence in 0..65535: at `sequence = 40000` the signed
16-bit `struct.pack` field raises `struct.error`. -/
theorem pack_big_endian_cex :
    (Icmp.pack 1 Icmp.TYPE_ECHO_REQUEST [] 1).map (fun r => r.1) ≠
      some (pack_be_claim 1 1 []) ∧
    Icmp.pack 1 Icmp.TYPE_ECHO_REQUEST [] 40000 = none := by
  constructor
  · decide
  · rfl

/-- C3 (amended): for every identifier in 0..65535 and sequence in 0..32767
(the nonnegative range of the signed 16-bit sequence field), encode succeeds
and emits the 8-byte header `type=8, code=0, checksum, identifier, sequence`
with the 16-bit fields in the platform's native little-endian order, where
the checksum is the ones'-complement sum of the header-plus-payload stream
read as little-endian 16-bit words (odd length padded with one trailing zero
byte), carries folded until none remain, then complemented and masked to
16 bits; for sequence ≥ 32768 encode fails with `struct.error`. -/
theorem pack_emits_le_header (id sq : Nat) (data : List Nat)
    (hid : id < 65536) (hdata : ∀ b ∈ data, b < 256) :
    (sq < 32768 → Icmp.pack id Icmp.TYPE_ECHO_REQUEST data sq =
      some ([8, 0] ++
        Icmp.le16 (checksum_le_spec ([8, 0] ++ Icmp.le16 0 ++ Icmp.le16 id ++ Icmp.le16 sq ++ data))
        ++ Icmp.le16 id ++ Icmp.le16 sq ++ data, 8, data.length)) ∧
    (32768 ≤ sq → Icmp.pack id Icmp.TYPE_ECHO_REQUEST data sq = none) := by
  constructor
  · intro hsq
    have h8 : Icmp.TYPE_ECHO_REQUEST = 8 := rfl
    have hp := pack_eq id Icmp.TYPE_ECHO_REQUEST sq data ⟨by rw [h8]; omega, hid, hsq⟩
    rw [h8] at hp
    have hbytes : ∀ b ∈ [8, 0] ++ Icmp.le16 0 ++ Icmp.le16 id ++ Icmp.le16 sq ++ data, b < 256 := by
      intro b hb
      simp only [List.mem_append] at hb
      rcases hb with (((h | h) | h) | h) | h
      · simp only [List.mem_cons, List.not_mem_nil, or_false] at h
        rcases h with rfl | rfl <;> omega
      · exact le16_bytes 0 b h
      · exact le16_bytes id b h
      · exact le16_bytes sq b h
      · exact hdata b h
    rw [h8, hp, checksum_eq_le_spec _ hbytes]
  · intro hsq
    have hcond : ¬ (Icmp.TYPE_ECHO_REQUEST < 128 ∧ id < 65536 ∧ sq < 32768) := by
      have h8 : Icmp.TYPE_ECHO_REQUEST = 8 := rfl
      omega
    simp only [Icmp.pack, if_neg hcond]

/-- Witness for C3's amended theorem at concrete inputs. -/
theorem pack_emits_le_header_witness :
    513 < 65536 ∧ (∀ b ∈ pingPongData, b < 256) ∧ (7 : Nat) < 32768 ∧
    Icmp.pack 513 Icmp.TYPE_ECHO_REQUEST pingPongData 7 =
      some ([8, 0] ++
        Icmp.le16 (checksum_le_spec
          ([8, 0] ++ Icmp.le16 0 ++ Icmp.le16 513 ++ Icmp.le16 7 ++ pingPongData))
        ++ Icmp.le16 513 ++ Icmp.le16 7 ++ pingPongData, 8, pingPongData.length) :=
  ⟨by decide, by decide, by decide,
    (pack_emits_le_header 513 7 pingPongData (by decide) (by decide)).1 (by decide)⟩

/-- C4 counterexample: at `identifier = 0, sequence = 40000` — inside the
claimed 16-bit field ranges — encode already fails (`struct.error` from the
signed 16-bit sequence field), so decoding the stub-prefixed encoding cannot
yield the claimed fields. -/
theorem unpack_pack_roundtrip_cex :
    (Icmp.pack 0 Icmp.TYPE_ECHO_REQUEST [] 40000).map
      (fun r => Icmp.unpack (List.replicate 20 0 ++ r.1)) = none := by
  rfl

/-- C4 (amended): for every identifier in 0..65535 and sequence in 0..32767,
decoding any 20-byte stub concatenated with the encoded packet yields
type = Echo Request (8), code 0, the stored checksum, and exactly the
identifier, sequence and payload that were encoded. -/
theorem unpack_pack_roundtrip (stub : List Nat) (hstub : stub.length = 20)
    (id sq : Nat) (data : List Nat) (hid : id < 65536) (hsq : sq < 32768) :
    ∃ pkt hsz dsz c, Icmp.pack id Icmp.TYPE_ECHO_REQUEST data sq = some (pkt, hsz, dsz) ∧
      Icmp.unpack (stub ++ pkt) = .ok { icmp_type := 8, icmp_code := 0, csum := c,
                                        identity := id, sequence := (sq : Int), data := data } := by
  have h8 : Icmp.TYPE_ECHO_REQUEST = 8 := rfl
  have hp := pack_eq id Icmp.TYPE_ECHO_REQUEST sq data ⟨by rw [h8]; omega, hid, hsq⟩
  rw [h8] at hp
  have hclt : Icmp.checksum ([8, 0] ++ Icmp.le16 0 ++ Icmp.le16 id ++ Icmp.le16 sq ++ data) < 65536 := by
    simp only [Icmp.checksum]
    omega
  set c := Icmp.checksum ([8, 0] ++ Icmp.le16 0 ++ Icmp.le16 id ++ Icmp.le16 sq ++ data) with hc
  refine ⟨_, _, _, c, hp, ?_⟩
  have hshape : [8, 0] ++ Icmp.le16 c ++ Icmp.le16 id ++ Icmp.le16 sq ++ data =
      [8, 0, c % 256, c / 256 % 256, id % 256, id / 256 % 256, sq % 256, sq / 256 % 256] ++ data := by
    simp [Icmp.le16]
  rw [hshape, unpack_cons _ _ _ _ _ _ _ _ stub data hstub]
  simp only [Except.ok.injEq, Icmp.EchoFields.mk.injEq, Nat.shiftLeft_eq]
  refine ⟨?_, ?_, ?_, ?_, ?_, trivial⟩
  · simp [Icmp.sbyte]
  · simp [Icmp.sbyte]
  · norm_num
    omega
  · norm_num
    omega
  · have hw : sq % 256 + sq / 256 % 256 * 2 ^ 8 = sq := by norm_num; omega
    rw [hw]
    simp [Icmp.s16, hsq]

/-- Witness for C4's amended theorem at concrete inputs. -/
theorem unpack_pack_roundtrip_witness :
    (List.replicate 20 0 : List Nat).length = 20 ∧ 1234 < 65536 ∧ (7 : Nat) < 32768 ∧
    ∃ pkt hsz dsz c, Icmp.pack 1234 Icmp.TYPE_ECHO_REQUEST [1, 2, 3] 7 = some (pkt, hsz, dsz) ∧
      Icmp.unpack (List.replicate 20 0 ++ pkt) = .ok { icmp_type := 8, icmp_code := 0, csum := c,
                                                       identity := 1234, sequence := (7 : Int), data := [1, 2, 3] } :=
  ⟨by decide, by decide, by decide,
    unpack_pack_roundtrip (List.replicate 20 0) (by decide) 1234 7 [1, 2, 3] (by decide) (by decide)⟩

/-- C5: for every identifier, sequence and byte payload that encode accepts,
recomputing the ones'-complement checksum over the complete encoded
header-plus-payload — including the filled-in checksum field — yields 0:
the checksum self-cancels. -/
theorem checksum_self_cancels (id sq : Nat) (data : List Nat)
    (hid : id < 65536) (hsq : sq < 32768) (hdata : ∀ b ∈ data, b < 256) :
    ∃ pkt hsz dsz, Icmp.pack id Icmp.TYPE_ECHO_REQUEST data sq = some (pkt, hsz, dsz) ∧
      Icmp.checksum pkt = 0 := by
  have h8 : Icmp.TYPE_ECHO_REQUEST = 8 := rfl
  have hp := pack_eq id Icmp.TYPE_ECHO_REQUEST sq data ⟨by rw [h8]; omega, hid, hsq⟩
  rw [h8] at hp
  exact ⟨_, _, _, hp, checksum_pack_zero id sq data hid hsq hdata⟩

/-- Witness for C5 at concrete inputs (the engine's own payload). -/
theorem checksum_self_cancels_witness :
    513 < 65536 ∧ (7 : Nat) < 32768 ∧ (∀ b ∈ pingPongData, b < 256) ∧
    ∃ pkt hsz dsz, Icmp.pack 513 Icmp.TYPE_ECHO_REQUEST pingPongData 7 = some (pkt, hsz, dsz) ∧
      Icmp.checksum pkt = 0 :=
  ⟨by decide, by decide, by decide,
    checksum_self_cancels 513 7 pingPongData (by decide) (by decide) (by decide)⟩

/-- C7: for the recorded samples [10, 20, 30] the summary statistics of
`Pying._get_rtt_stats` are min = 10, max = 30, avg = 20 (each the Python
`round(_, 3)` of the exact value), and the mean deviation — `numpy.std`,
the population standard deviation (dividing squared deviations by the
sample count, not count − 1) — rounded to 3 decimal places is 8.165. -/
theorem rtt_stats_values :
    (listMin sampleRtts).map round3 = some 10 ∧
    round3 (npMean sampleRtts) = 20 ∧
    (listMax sampleRtts).map round3 = some 30 ∧
    ((round (Real.sqrt ((npVarPop sampleRtts : ℚ) : ℝ) * 1000) : ℤ) : ℝ) / 1000 = 8165 / 1000 := by
  have r10 : round3 (10 : ℚ) = 10 := by
    have h : (10 : ℚ) * 1000 = ((10000 : ℤ) : ℚ) := by norm_num
    rw [round3, h, round_intCast]; norm_num
  have r20 : round3 (20 : ℚ) = 20 := by
    have h : (20 : ℚ) * 1000 = ((20000 : ℤ) : ℚ) := by norm_num
    rw [round3, h, round_intCast]; norm_num
  have r30 : round3 (30 : ℚ) = 30 := by
    have h : (30 : ℚ) * 1000 = ((30000 : ℤ) : ℚ) := by norm_num
    rw [round3, h, round_intCast]; norm_num
  refine ⟨?_, ?_, ?_, ?_⟩
  · rw [show listMin sampleRtts = some 10 by decide]
    simp [r10]
  · rw [show npMean sampleRtts = 20 by
      norm_num [npMean, sampleRtts, List.sum_cons, List.sum_nil]]
    exact r20
  · rw [show listMax sampleRtts = some 30 by decide]
    simp [r30]
  · have hv : npVarPop sampleRtts = 200 / 3 := by
      norm_num [npVarPop, npMean, sampleRtts, List.sum_cons, List.sum_nil, List.map]
    have hcast : ((npVarPop sampleRtts : ℚ) : ℝ) = 200 / 3 := by
      rw [hv]; push_cast; ring
    rw [hcast]
    have h1 : (16329 / 2000 : ℝ) ≤ Real.sqrt (200 / 3) := by
      rw [Real.le_sqrt (by norm_num) (by norm_num)]
      norm_num
    have h2 : Real.sqrt (200 / 3) < 16331 / 2000 := by
      rw [Real.sqrt_lt' (by norm_num)]
      norm_num
    have hfl : round (Real.sqrt (200 / 3) * 1000) = (8165 : ℤ) := by
      rw [round_eq]
      apply Int.floor_eq_iff.mpr
      constructor
      · push_cast
        linarith [h1]
      · push_cast
        linarith [h2]
    rw [hfl]
    norm_num
